import Mathlib

/-!
Verification of the yield-curve interpolation library.

This file is a shallow embedding, over the real numbers, of the code in
`yield_curve_interpolation/utils.py`, `traditional_interpolation.py` and
`pricing.py`.  Floating-point arithmetic is idealised as exact real
arithmetic; numpy real powers are modelled by `Real.rpow` and numpy arrays
by lists of reals.  Functions that can raise are embedded with `Except`.
-/

open scoped Classical

namespace YieldCurve

/-- A raised Python exception carrying a message (the spec calls the
input-validation variant `DomainError`; the code raises `ValueError`). -/
structure DomainError where
  msg : String
  deriving DecidableEq

/-- Adjacent pairs of a list: `[a, b, c] ↦ [(a, b), (b, c)]`.  Models the
pairing implicit in numpy slice expressions such as `xs[1:]` against
`xs[:-1]` (e.g. `np.diff`). -/
def adjPairs {α : Type*} (l : List α) : List (α × α) := l.zip l.tail

/-! ## Rate algebra (`utils.py`)

Each conversion returns (as in the source) a dictionary with key 0 holding
the maturities/ranges and key 1 holding the converted values; we embed the
dictionary as the pair of its two components where both matter and as the
key-1 component alone where the key-0 component is just the input echoed
back. -/

/-- `utils.spot_to_discount` (key-1 component of the returned dict; the
key-0 component is the `maturities` argument returned unchanged).
Continuous: `exp(-r*t)`; discrete: `1/(1 + r/freq)**(freq*t)`. -/
noncomputable def spot_to_discount (zero_rates maturities : List ℝ)
    (compounding_freq : ℝ) (continuous : Bool) : List ℝ :=
  if continuous then
    (zero_rates.zip maturities).map fun p => Real.exp (-(p.1 * p.2))
  else
    (zero_rates.zip maturities).map fun p =>
      1 / (1 + p.1 / compounding_freq) ^ (compounding_freq * p.2)

/-- `utils.discount_to_spot` (key-1 component of the returned dict).
Continuous: `-log(df)/t`; discrete: `freq*((1/df)**(1/(freq*t)) - 1)`. -/
noncomputable def discount_to_spot (discount_factors maturities : List ℝ)
    (compounding_freq : ℝ) (continuous : Bool) : List ℝ :=
  if continuous then
    (discount_factors.zip maturities).map fun p => -Real.log p.1 / p.2
  else
    (discount_factors.zip maturities).map fun p =>
      compounding_freq * ((1 / p.1) ^ (1 / (compounding_freq * p.2)) - 1)

/-- The source `spot_to_discount` raises no exception on any input; the
`Except`-typed wrapper records that there is no failing control path. -/
noncomputable def spot_to_discount_run (zero_rates maturities : List ℝ)
    (compounding_freq : ℝ) (continuous : Bool) : Except DomainError (List ℝ) :=
  Except.ok (spot_to_discount zero_rates maturities compounding_freq continuous)

/-- A single entry of `spot_to_discount` (the two branch formulas). -/
noncomputable def dfScalar (f : ℝ) (c : Bool) (r t : ℝ) : ℝ :=
  if c then Real.exp (-(r * t)) else 1 / (1 + r / f) ^ (f * t)

/-- A single entry of `discount_to_spot` (the two branch formulas). -/
noncomputable def dsScalar (f : ℝ) (c : Bool) (d t : ℝ) : ℝ :=
  if c then -Real.log d / t else f * ((1 / d) ^ (1 / (f * t)) - 1)

/-- `np.cumprod`: the running products of the list's prefixes. -/
noncomputable def cumprod (l : List ℝ) : List ℝ :=
  (List.range l.length).map fun k => (l.take (k + 1)).prod

/-- `utils.spot_to_fwd`, returning the dict as the pair
`(mat_ranges, forward_rates)`.  The first forward bucket is the first spot
rate (`np.insert(forward_rates, 0, zero_rates[0])`); later buckets come
from differences of cumulative `r·t` (continuous) or ratios of successive
discount factors (discrete). -/
noncomputable def spot_to_fwd (zero_rates maturities : List ℝ)
    (compounding_freq : ℝ) (continuous : Bool) :
    List (ℝ × ℝ) × List ℝ :=
  let forward_rates :=
    if continuous then
      zero_rates.headD 0 ::
        List.zipWith
          (fun pr pm => (pr.2 * pm.2 - pr.1 * pm.1) / (pm.2 - pm.1))
          (adjPairs zero_rates) (adjPairs maturities)
    else
      let dfs := spot_to_discount zero_rates maturities compounding_freq false
      let fwd_dfs := (adjPairs dfs).map fun p => p.2 / p.1
      let diffs := (adjPairs maturities).map fun p => p.2 - p.1
      zero_rates.headD 0 ::
        discount_to_spot fwd_dfs diffs compounding_freq false
  let mat_ranges := (0, maturities.headD 0) :: adjPairs maturities
  (mat_ranges, forward_rates)

/-- `utils.discount_to_fwd`: composition of `discount_to_spot` and
`spot_to_fwd`. -/
noncomputable def discount_to_fwd (discount_factors maturities : List ℝ)
    (compounding_freq : ℝ) (continuous : Bool) : List (ℝ × ℝ) × List ℝ :=
  spot_to_fwd
    (discount_to_spot discount_factors maturities compounding_freq continuous)
    maturities compounding_freq continuous

/-- `utils.fwd_to_discount`, returning the dict as the pair
`(maturities, discount_factors)`: per-bucket discount factors over the
range widths, accumulated with `np.cumprod`. -/
noncomputable def fwd_to_discount (forward_rates : List ℝ)
    (mat_ranges : List (ℝ × ℝ)) (compounding_freq : ℝ)
    (continuous : Bool) : List ℝ × List ℝ :=
  let mat_diffs := mat_ranges.map fun p => p.2 - p.1
  let dfs := spot_to_discount forward_rates mat_diffs compounding_freq
    continuous
  let discount_factors := cumprod dfs
  let maturities := mat_ranges.map fun p => p.2
  (maturities, discount_factors)

/-! ## Bond schedule and pricing (`pricing.py`) -/

/-- A Python `datetime.date` (proleptic Gregorian calendar). -/
structure Date where
  year : Int
  month : Nat
  day : Nat
  deriving DecidableEq

/-- Python `datetime.date` ordering: lexicographic on
(year, month, day). -/
def dateLt (a b : Date) : Bool :=
  a.year < b.year ||
    (a.year == b.year &&
      (a.month < b.month || (a.month == b.month && a.day < b.day)))

/-- The Gregorian leap-year rule used by Python's `datetime`. -/
def isLeapYear (y : Int) : Bool :=
  y % 4 == 0 && (y % 100 != 0 || y % 400 == 0)

/-- Number of days in a month.  The source computes the last valid day of
the month as `(date(year + month // 12, month % 12 + 1, 1) -
timedelta(days=1)).day`, which equals this function for valid months. -/
def daysInMonth (y : Int) (m : Nat) : Nat :=
  if m = 2 then (if isLeapYear y then 29 else 28)
  else if m = 4 ∨ m = 6 ∨ m = 9 ∨ m = 11 then 30
  else 31

/-- One iteration of the while loop in `bond.get_all_payment_dates`: step
forward `12 // payment_freq` months (integer division, as in the source)
and clamp the day to the last valid day of the target month. -/
def nextPaymentDate (freq : Nat) (d : Date) : Date :=
  let m1 := d.month + 12 / freq
  let y := d.year + ((m1 - 1) / 12 : Nat)
  let m := (m1 - 1) % 12 + 1
  ⟨y, m, min d.day (daysInMonth y m)⟩

/-- The while loop of `bond.get_all_payment_dates`, fuelled: the source
loop is unbounded, and `none` records that the fuel ran out with the loop
still running (the list collects the dates appended so far while
`current_date < maturity_date`). -/
def paymentDatesLoop (freq : Nat) (maturity : Date) :
    Nat → Date → Option (List Date)
  | 0, cur => if dateLt cur maturity then none else some []
  | n + 1, cur =>
    if dateLt cur maturity then
      (paymentDatesLoop freq maturity n (nextPaymentDate freq cur)).map
        (cur :: ·)
    else some []

/-- `bond.get_all_payment_dates`: zero/negative frequency yields the
single entry `[maturity_date]`; otherwise the walked dates from
`first_coupon_date` with `maturity_date` appended. -/
def get_all_payment_dates (payment_freq : Int)
    (first_coupon_date maturity_date : Date) (fuel : Nat) :
    Option (List Date) :=
  if payment_freq ≤ 0 then some [maturity_date]
  else
    (paymentDatesLoop payment_freq.toNat maturity_date fuel
      first_coupon_date).map (· ++ [maturity_date])

/-- `12*year + month`, the month counter used to reason about the walk. -/
def monthIdx (d : Date) : Int :=
  12 * d.year + d.month

/-- Cumulative days before each month in a non-leap year. -/
def daysBeforeMonth (m : Nat) : Nat :=
  if m = 1 then 0 else if m = 2 then 31 else if m = 3 then 59
  else if m = 4 then 90 else if m = 5 then 120 else if m = 6 then 151
  else if m = 7 then 181 else if m = 8 then 212 else if m = 9 then 243
  else if m = 10 then 273 else if m = 11 then 304 else 334

/-- Python's `date.toordinal`: day number in the proleptic Gregorian
calendar with `0001-01-01 = 1`; date subtraction `(d2 - d1).days` is the
difference of ordinals. -/
def dateToDays (d : Date) : Int :=
  365 * (d.year - 1) + (d.year - 1) / 4 - (d.year - 1) / 100
    + (d.year - 1) / 400 + daysBeforeMonth d.month
    + (if 2 < d.month ∧ isLeapYear d.year then 1 else 0) + d.day

/-- The year fraction `(date - today).days / 365.25` used throughout
`pricing.py`. -/
noncomputable def yearFrac (today d : Date) : ℝ :=
  ((dateToDays d - dateToDays today : ℤ) : ℝ) / 365.25

/-- `bond.maturities`: year fractions of the payment dates from `today`,
keeping only the strictly positive ones
(`maturities[maturities > 0]`). -/
noncomputable def bond_maturities (today : Date) (dates : List Date) :
    List ℝ :=
  (dates.map (yearFrac today)).filter fun t => 0 < t

/-- `cash_flows[-1] += face_value`. -/
def addToLast (l : List ℝ) (x : ℝ) : List ℝ :=
  match l with
  | [] => []
  | [a] => [a + x]
  | a :: b :: t => a :: addToLast (b :: t) x

/-- `bond.get_all_cash_flows`: a single accreted flow for zero-coupon
bonds, else a constant coupon at every payment date with the face value
added to the last one. -/
noncomputable def get_all_cash_flows (payment_freq : Int)
    (face_value coupon_rate : ℝ) (dates : List Date) : List ℝ :=
  if payment_freq ≤ 0 then [face_value + face_value * coupon_rate]
  else addToLast
    (dates.map fun _ => face_value * coupon_rate / (payment_freq : ℝ))
    face_value

/-- `bond.cash_flows`: the last `len(maturities)` entries of the full
cash-flow vector (`arr[-n:]`; Python's `arr[-0:]` is the whole array). -/
def bond_cash_flows (allCF : List ℝ) (n : ℕ) : List ℝ :=
  if n = 0 then allCF else allCF.drop (allCF.length - n)

/-- `pricing.price_bond`: `sum(cf * df for cf, df in
zip(cash_flows, discount_factors))` with the discount factors from
`spot_to_discount`. -/
noncomputable def price_bond (cash_flows maturities zero_rates : List ℝ)
    (compounding_freq : ℝ) (continuous : Bool) : ℝ :=
  ((cash_flows.zip
      (spot_to_discount zero_rates maturities compounding_freq
        continuous)).map fun p => p.1 * p.2).sum

/-- `bond.calc_price`:
`price_bond(self.cash_flows, self.maturities, zero_rates, ...)`. -/
noncomputable def calc_price (today : Date) (dates : List Date)
    (allCF zero_rates : List ℝ) (compounding_freq : ℝ)
    (continuous : Bool) : ℝ :=
  price_bond
    (bond_cash_flows allCF (bond_maturities today dates).length)
    (bond_maturities today dates) zero_rates compounding_freq continuous

/-! ## C9: yield-to-maturity sentinel on non-convergence -/

/-- The outcome of `scipy.optimize.minimize`, as consumed by
`bond.calc_ytm`: the convergence flag `success` and the solution `x[0]`.
The optimizer itself is an external collaborator and is left abstract. -/
structure OptimizeResult where
  success : Bool
  x : ℝ

/-- What `bond.calc_ytm` hands back: `value = none` models the sentinel
`float('nan')`, and `notice` records whether the diagnostic
"YTM calculation did not converge." was printed. -/
structure YtmResult where
  value : Option ℝ
  notice : Bool

/-- `bond.calc_ytm`, branch structure of the source: on `result.success`
return `result.x[0]`, otherwise print the diagnostic and return NaN. -/
def calc_ytm (result : OptimizeResult) : YtmResult :=
  if result.success then ⟨some result.x, false⟩ else ⟨none, true⟩

/-- `calc_ytm` raises no exception on either branch. -/
def calc_ytm_run (result : OptimizeResult) : Except DomainError YtmResult :=
  Except.ok (calc_ytm result)

/-! ## Curve fitting (`traditional_interpolation.py`) -/

/-- `np.interp` on nodes paired as `(x, y)` with `x` strictly increasing:
piecewise linear between nodes and clamped to the boundary `y` values
outside the node range (numpy's documented defaults `left=fp[0]`,
`right=fp[-1]`). -/
noncomputable def npInterp (x : ℝ) : List (ℝ × ℝ) → ℝ
  | [] => 0
  | [p] => p.2
  | p :: q :: l =>
    if x ≤ p.1 then p.2
    else if x ≤ q.1 then p.2 + (q.2 - p.2) * (x - p.1) / (q.1 - p.1)
    else npInterp x (q :: l)

/-- Float division over the reals: finite iff the divisor is nonzero (a
zero divisor yields `inf` or `nan` in IEEE arithmetic, modelled `none`). -/
noncomputable def floatDiv (a b : ℝ) : Option ℝ :=
  if b = 0 then none else some (a / b)

/-- `linear_interpolation`'s working values: `RT = -np.log(dfs)` evaluated
by `np.interp` at the target maturity (the source's `estimated_RT`). -/
noncomputable def linear_interpolation_RT (dfs maturities : List ℝ)
    (t : ℝ) : ℝ :=
  npInterp t (maturities.zip (dfs.map fun d => -Real.log d))

/-- The closure `interpolate` returned by `linear_interpolation`:
`estimated_RT / target_maturities`. -/
noncomputable def linear_interpolate (dfs maturities : List ℝ) (t : ℝ) :
    Option ℝ :=
  floatDiv (linear_interpolation_RT dfs maturities t) t

/-- `linear_interpolation` as a fit call: the source body performs no
validation and contains no raise, so fitting always succeeds. -/
noncomputable def linear_interpolation (dfs maturities : List ℝ) :
    Except DomainError (ℝ → Option ℝ) :=
  Except.ok (linear_interpolate dfs maturities)

/-- One cubic Hermite segment on `[x0, x1]` with values `y0, y1` and
derivatives `m0, m1` (the interval polynomial of `CubicHermiteSpline`). -/
noncomputable def hermiteSegment (x0 y0 m0 x1 y1 m1 t : ℝ) : ℝ :=
  let h := x1 - x0
  let s := (t - x0) / h
  y0 * (2 * s ^ 3 - 3 * s ^ 2 + 1) + m0 * h * (s ^ 3 - 2 * s ^ 2 + s)
    + y1 * (-2 * s ^ 3 + 3 * s ^ 2) + m1 * h * (s ^ 3 - s ^ 2)

/-- Piecewise evaluation of the fitted Hermite spline on nodes
`(x, (y, dy))`: uses the segment containing `t`, extending the first/last
segment's cubic beyond the node range (scipy's `extrapolate=True`). -/
noncomputable def hermiteSplineEval : List (ℝ × ℝ × ℝ) → ℝ → ℝ
  | [], _ => 0
  | [_], _ => 0
  | [(x0, y0, m0), (x1, y1, m1)], t => hermiteSegment x0 y0 m0 x1 y1 m1 t
  | (x0, y0, m0) :: (x1, y1, m1) :: c :: l, t =>
    if t ≤ x1 then hermiteSegment x0 y0 m0 x1 y1 m1 t
    else hermiteSplineEval ((x1, y1, m1) :: c :: l) t

/-- `Hermite_interpolation`: per-interval forward rates
`-(np.diff(np.log(dfs)) / np.diff(maturities))`. -/
noncomputable def f_intervals (dfs maturities : List ℝ) : List ℝ :=
  List.zipWith
    (fun pd pm => -((Real.log pd.2 - Real.log pd.1) / (pm.2 - pm.1)))
    (adjPairs dfs) (adjPairs maturities)

/-- `Hermite_interpolation`: node slopes in forward-rate space; boundary
nodes take the adjacent interval's forward rate, interior nodes the average
of the two neighbouring intervals' rates. -/
noncomputable def f_nodes (dfs maturities : List ℝ) : List ℝ :=
  let fi := f_intervals dfs maturities
  fi.headD 0 ::
    (((adjPairs fi).map fun p => 0.5 * (p.1 + p.2)) ++ [fi.getLastD 0])

/-- `dP_dt = -f_nodes * dfs`. -/
noncomputable def dP_dt (dfs maturities : List ℝ) : List ℝ :=
  List.zipWith (fun fn d => -(fn * d)) (f_nodes dfs maturities) dfs

/-- The spline nodes `(maturity, discount factor, dP_dt)` handed to
`CubicHermiteSpline`. -/
noncomputable def hermiteNodes (dfs maturities : List ℝ) :
    List (ℝ × ℝ × ℝ) :=
  maturities.zip (dfs.zip (dP_dt dfs maturities))

/-- The closure `interpolate_` returned by `Hermite_interpolation`: the
spline value is clipped to `eps = 1e-12` from below, `-log(P)/t` is taken
for strictly positive targets (`mask_nonzero = target_maturities > 0`), and
other targets receive the boundary forward rate `f_nodes[0]`. -/
noncomputable def Hermite_interpolate (dfs maturities : List ℝ) (t : ℝ) :
    ℝ :=
  let P := hermiteSplineEval (hermiteNodes dfs maturities) t
  let Pc := max P 1e-12
  if 0 < t then -Real.log Pc / t else (f_nodes dfs maturities).headD 0

/-- `Hermite_interpolation` fit entry.  The source raises on two of its
own paths: `ValueError` (the spec's `DomainError`) iff
`np.any(np.diff(maturities) <= 0)`, and — past that check — an
`IndexError` at `f_nodes[0] = f_intervals[0]` whenever `f_intervals` is
empty, i.e. with fewer than 2 points.  (A third raise lives inside scipy:
`CubicHermiteSpline` rejects non-finite `dydx`, which floats produce when
a discount factor is not strictly positive; that floating-point path has
no counterpart in the real-number embedding, so the fit theorems restrict
to positive discount factors.) -/
noncomputable def Hermite_interpolation (dfs maturities : List ℝ) :
    Except DomainError (ℝ → ℝ) :=
  if ∃ p ∈ adjPairs maturities, p.2 - p.1 ≤ 0 then
    Except.error ⟨"maturities must be strictly increasing"⟩
  else if f_intervals dfs maturities = [] then
    Except.error ⟨"index 0 is out of bounds"⟩
  else Except.ok (Hermite_interpolate dfs maturities)

/-! ## Lemmas and claim theorems -/

@[simp] lemma adjPairs_nil {α : Type*} : adjPairs ([] : List α) = [] := rfl

@[simp] lemma adjPairs_singleton {α : Type*} (a : α) : adjPairs [a] = [] := rfl

@[simp] lemma adjPairs_cons_cons {α : Type*} (a b : α) (l : List α) :
    adjPairs (a :: b :: l) = (a, b) :: adjPairs (b :: l) := rfl

@[simp] lemma adjPairs_length {α : Type*} (l : List α) :
    (adjPairs l).length = l.length - 1 := by
  simp only [adjPairs, List.length_zip, List.length_tail]
  omega

/-! ### Scalar round-trip lemmas -/

/-- Continuous-compounding round trip for one entry. -/
lemma spot_df_spot_cont (r t : ℝ) (ht : t ≠ 0) :
    -Real.log (Real.exp (-(r * t))) / t = r := by
  rw [Real.log_exp, neg_neg, mul_div_assoc, div_self ht, mul_one]

/-- Discrete-compounding round trip for one entry, valid whenever the
compounding base `1 + r/f` is positive. -/
lemma spot_df_spot_disc (f r t : ℝ) (hf : f ≠ 0) (ht : t ≠ 0)
    (hb : 0 < 1 + r / f) :
    f * ((1 / (1 / (1 + r / f) ^ (f * t))) ^ (1 / (f * t)) - 1) = r := by
  have hft : f * t ≠ 0 := mul_ne_zero hf ht
  rw [one_div_one_div, ← Real.rpow_mul hb.le, mul_one_div_cancel hft,
    Real.rpow_one, add_sub_cancel_left, mul_div_cancel₀ _ hf]

/-- Continuous inverse direction: converting a positive discount factor to a
rate and back reproduces it. -/
lemma df_spot_df_cont (d t : ℝ) (ht : t ≠ 0) (hd : 0 < d) :
    Real.exp (-(-Real.log d / t * t)) = d := by
  rw [div_mul_cancel₀ _ ht, neg_neg, Real.exp_log hd]

/-- Discrete inverse direction: converting a positive discount factor to a
rate and back reproduces it. -/
lemma df_spot_df_disc (f d t : ℝ) (hf : f ≠ 0) (ht : t ≠ 0) (hd : 0 < d) :
    1 / (1 + f * ((1 / d) ^ (1 / (f * t)) - 1) / f) ^ (f * t) = d := by
  have hft : f * t ≠ 0 := mul_ne_zero hf ht
  have h1 : f * ((1 / d) ^ (1 / (f * t)) - 1) / f = (1 / d) ^ (1 / (f * t)) - 1 :=
    mul_div_cancel_left₀ _ hf
  have h2 : (1 : ℝ) + ((1 / d) ^ (1 / (f * t)) - 1) = (1 / d) ^ (1 / (f * t)) := by ring
  have hd1 : (0 : ℝ) ≤ 1 / d := by positivity
  rw [h1, h2, ← Real.rpow_mul hd1, one_div_mul_cancel hft, Real.rpow_one,
    one_div_one_div]

/-! ## C1: spot ↔ discount round trip -/

/-- C1 counterexample: the round trip fails for a rate below `-freq`.  With
`rates = [-2]`, `maturities = [2]`, `freq = 1` (not continuous) the code
computes the discount factor `1/(1 + (-2))**2 = 1` with ordinary finite
floats, and `discount_to_spot` then recovers the rate `0`, not `-2`; the
difference `2` is far beyond the claimed `1e-9` tolerance. -/
theorem c1_roundtrip_counterexample :
    discount_to_spot (spot_to_discount [-2] [2] 1 false) [2] 1 false = [0] ∧
    ¬ |(0 : ℝ) - (-2)| ≤ 1e-9 := by
  constructor
  · have hbase : ((1 : ℝ) + (-2) / 1) = -1 := by norm_num
    have hpow : ((-1 : ℝ)) ^ ((2 : ℝ)) = 1 := by
      rw [show ((2 : ℝ)) = ((2 : ℕ) : ℝ) from by norm_num, Real.rpow_natCast]
      norm_num
    simp only [spot_to_discount, discount_to_spot, if_neg, Bool.false_eq_true,
      if_false, List.zip_cons_cons, List.zip_nil_right, List.map_cons,
      List.map_nil]
    rw [show ((1 : ℝ) * 2) = 2 from by norm_num, hbase, hpow]
    norm_num [Real.one_rpow]
  · norm_num

/-- C1 amended: for every rate vector whose entries keep the compounding
base `1 + r/freq` positive in the discrete case (no restriction in the
continuous case), strictly positive maturities and positive frequency, the
round trip `discount_to_spot ∘ spot_to_discount` returns the original rates
exactly (hence within the claimed `1e-9` tolerance). -/
theorem c1_roundtrip_amended (rates ms : List ℝ) (freq : ℝ) (cont : Bool)
    (hf : 0 < freq)
    (h : List.Forall₂ (fun r t => 0 < t ∧ (cont = false → 0 < 1 + r / freq))
      rates ms) :
    discount_to_spot (spot_to_discount rates ms freq cont) ms freq cont
      = rates := by
  induction h with
  | nil => cases cont <;> simp [spot_to_discount, discount_to_spot]
  | @cons r t rs ts hp _ ih =>
    rcases hp with ⟨ht, hb⟩
    cases cont with
    | false =>
      simp only [spot_to_discount, discount_to_spot, Bool.false_eq_true,
        if_false, List.zip_cons_cons, List.map_cons] at ih ⊢
      rw [List.cons_eq_cons]
      exact ⟨spot_df_spot_disc freq r t hf.ne' ht.ne' (hb rfl), ih⟩
    | true =>
      simp only [spot_to_discount, discount_to_spot, if_true,
        List.zip_cons_cons, List.map_cons] at ih ⊢
      rw [List.cons_eq_cons]
      exact ⟨spot_df_spot_cont r t ht.ne', ih⟩

/-- C1 witness: the amended round trip at a concrete input. -/
theorem c1_roundtrip_amended_witness :
    (0 : ℝ) < 1 ∧
    discount_to_spot (spot_to_discount [0.05] [2] 1 false) [2] 1 false
      = [0.05] :=
  ⟨by norm_num, c1_roundtrip_amended [0.05] [2] 1 false (by norm_num)
    (List.Forall₂.cons ⟨by norm_num, fun _ => by norm_num⟩ List.Forall₂.nil)⟩

/-! ## C4: validation behaviour of `spot_to_discount` -/

/-- C4 counterexample: the code raises nothing.  A negative maturity and a
zero frequency are both accepted: the call returns the computed factors,
contradicting the claim that a `DomainError` is raised before any
computation proceeds. -/
theorem c4_counterexample :
    ((-1 : ℝ) < 0) ∧
    spot_to_discount_run [0.05] [-1] 1 false
      = Except.ok (spot_to_discount [0.05] [-1] 1 false) ∧
    spot_to_discount_run [0.05] [1] 0 false
      = Except.ok (spot_to_discount [0.05] [1] 0 false) :=
  ⟨by norm_num, rfl, rfl⟩

/-- C4 amended: `spot_to_discount` performs no input validation and never
raises: every input (negative maturities and non-positive frequencies
included) yields the formula's values.  In particular the discrete formula
simply extends to negative maturities, where it produces the reciprocal of
the positive-maturity factor whenever the compounding base is positive. -/
theorem c4_no_validation_amended (rates ms : List ℝ) (freq : ℝ) (cont : Bool)
    (r t : ℝ) (hb : 0 < 1 + r / freq) :
    spot_to_discount_run rates ms freq cont
      = Except.ok (spot_to_discount rates ms freq cont) ∧
    (1 / (1 + r / freq) ^ (freq * -t)) * (1 / (1 + r / freq) ^ (freq * t))
      = 1 := by
  refine ⟨rfl, ?_⟩
  rw [div_mul_div_comm, one_mul, ← Real.rpow_add hb, mul_neg,
    neg_add_cancel, Real.rpow_zero, div_one]

/-- C4 witness: the amended statement at a concrete input. -/
theorem c4_no_validation_amended_witness :
    (0 : ℝ) < 1 + 0.05 / 1 ∧
    (spot_to_discount_run [0.05] [-1] 1 false
        = Except.ok (spot_to_discount [0.05] [-1] 1 false) ∧
      (1 / (1 + (0.05 : ℝ) / 1) ^ ((1 : ℝ) * -1))
          * (1 / (1 + (0.05 : ℝ) / 1) ^ ((1 : ℝ) * 1)) = 1) :=
  ⟨by norm_num,
    c4_no_validation_amended [0.05] [-1] 1 false 0.05 1 (by norm_num)⟩

/-- C9: when the optimizer inside `calc_ytm` reports failure (e.g. it did
not converge within its iteration bound), `calc_ytm` does not raise: it
returns the not-a-number sentinel (modelled as `none`) and emits the
diagnostic notice. -/
theorem c9_ytm_sentinel (result : OptimizeResult)
    (h : result.success = false) :
    calc_ytm_run result = Except.ok ⟨none, true⟩ := by
  simp [calc_ytm_run, calc_ytm, h]

/-- C9 witness: a concrete failed optimizer outcome. -/
theorem c9_ytm_sentinel_witness :
    (OptimizeResult.mk false 0).success = false ∧
    calc_ytm_run ⟨false, 0⟩ = Except.ok ⟨none, true⟩ :=
  ⟨rfl, c9_ytm_sentinel ⟨false, 0⟩ rfl⟩

/-! ### Helper lemmas about `npInterp` and chains -/

/-- A chain of strictly increasing first components relates the head to the
last element. -/
lemma chain'_fst_le_getLast (l : List (ℝ × ℝ)) (q p : ℝ × ℝ)
    (hc : List.Chain' (fun a b => a.1 < b.1) (q :: l))
    (hl : (q :: l).getLast? = some p) : q.1 ≤ p.1 := by
  induction l generalizing q with
  | nil =>
    simp only [List.getLast?_singleton, Option.some_inj] at hl
    simp [hl]
  | cons r t ih =>
    have h1 : q.1 < r.1 := (List.chain'_cons.mp hc).1
    have h2 := ih r (List.chain'_cons.mp hc).2
      (by rwa [List.getLast?_cons_cons] at hl)
    exact le_trans h1.le h2

/-- `np.interp` clamps to the first node's value on the left. -/
lemma npInterp_left (x : ℝ) (l : List (ℝ × ℝ)) (p : ℝ × ℝ)
    (hh : l.head? = some p) (hx : x ≤ p.1) : npInterp x l = p.2 := by
  cases l with
  | nil => simp at hh
  | cons q t =>
    rw [List.head?_cons, Option.some_inj] at hh
    subst hh
    cases t with
    | nil => simp [npInterp]
    | cons r t' => simp only [npInterp]; rw [if_pos hx]

/-- `np.interp` clamps to the last node's value on the right. -/
lemma npInterp_right (x : ℝ) (l : List (ℝ × ℝ)) (p : ℝ × ℝ)
    (hc : List.Chain' (fun a b => a.1 < b.1) l)
    (hl : l.getLast? = some p) (hx : p.1 ≤ x) : npInterp x l = p.2 := by
  induction l with
  | nil => simp at hl
  | cons q t ih =>
    cases t with
    | nil =>
      simp only [List.getLast?_singleton, Option.some_inj] at hl
      simp [npInterp, hl]
    | cons r t' =>
      have hqr : q.1 < r.1 := (List.chain'_cons.mp hc).1
      have hct : List.Chain' (fun a b => a.1 < b.1) (r :: t') :=
        (List.chain'_cons.mp hc).2
      rw [List.getLast?_cons_cons] at hl
      have hrp : r.1 ≤ p.1 := chain'_fst_le_getLast t' r p hct hl
      have hqx : ¬ x ≤ q.1 := not_le.mpr (lt_of_lt_of_le hqr (hrp.trans hx))
      simp only [npInterp]
      rw [if_neg hqx]
      cases t' with
      | nil =>
        simp only [List.getLast?_singleton, Option.some_inj] at hl
        rw [hl] at hqr ⊢
        have hne : p.1 - q.1 ≠ 0 := sub_ne_zero.mpr (ne_of_gt hqr)
        by_cases hxr : x ≤ p.1
        · have hxe : x = p.1 := le_antisymm hxr hx
          rw [if_pos hxr, hxe, mul_div_assoc, div_self hne, mul_one]
          ring
        · rw [if_neg hxr]
          simp [npInterp]
      | cons s t'' =>
        have hrs : r.1 < s.1 := (List.chain'_cons.mp hct).1
        have hsp : s.1 ≤ p.1 := chain'_fst_le_getLast t'' s p
          (List.chain'_cons.mp hct).2 (by rwa [List.getLast?_cons_cons] at hl)
        have hxr : ¬ x ≤ r.1 :=
          not_le.mpr (lt_of_lt_of_le hrs (hsp.trans hx))
        rw [if_neg hxr]
        exact ih hct (by rwa [List.getLast?_cons_cons])

/-- A strict chain on a list induces a strict chain on the first components
of its zip with any other list. -/
lemma chain'_fst_zip (a : List ℝ) (b : List ℝ)
    (hc : List.Chain' (· < ·) a) :
    List.Chain' (fun p q : ℝ × ℝ => p.1 < q.1) (a.zip b) := by
  induction a generalizing b with
  | nil => simp
  | cons x t ih =>
    cases b with
    | nil => simp
    | cons y s =>
      cases t with
      | nil => simp
      | cons x' t' =>
        cases s with
        | nil => simp
        | cons y' s' =>
          rw [List.zip_cons_cons, List.zip_cons_cons, List.chain'_cons]
          exact ⟨(List.chain'_cons.mp hc).1,
            by
              have := ih (List.chain'_cons.mp hc).2 (b := y' :: s')
              rwa [List.zip_cons_cons] at this⟩

/-- Last element of a zip of equal-length lists. -/
lemma zip_getLast? {α β : Type*} (a : List α) (b : List β) (x : α) (y : β)
    (h : a.length = b.length) (ha : a.getLast? = some x)
    (hb : b.getLast? = some y) : (a.zip b).getLast? = some (x, y) := by
  induction a generalizing b with
  | nil => simp at ha
  | cons p t ih =>
    cases b with
    | nil => simp at hb
    | cons q s =>
      cases t with
      | nil =>
        cases s with
        | nil =>
          simp only [List.getLast?_singleton, Option.some_inj] at ha hb
          simp [ha, hb]
        | cons q' s' => simp at h
      | cons p' t' =>
        cases s with
        | nil => simp at h
        | cons q' s' =>
          rw [List.zip_cons_cons, List.zip_cons_cons,
            List.getLast?_cons_cons]
          rw [List.getLast?_cons_cons] at ha hb
          have := ih (q' :: s') (by simpa using h) ha hb
          rwa [List.zip_cons_cons] at this

/-- Head of a zip. -/
lemma zip_head? {α β : Type*} (a : List α) (b : List β) (x : α) (y : β)
    (ha : a.head? = some x) (hb : b.head? = some y) :
    (a.zip b).head? = some (x, y) := by
  cases a with
  | nil => simp at ha
  | cons p t =>
    cases b with
    | nil => simp at hb
    | cons q s =>
      rw [List.head?_cons, Option.some_inj] at ha hb
      simp [ha, hb]

/-- `Chain'` as a statement about adjacent pairs. -/
lemma chain'_iff_adjPairs {α : Type*} (R : α → α → Prop) (l : List α) :
    List.Chain' R l ↔ ∀ p ∈ adjPairs l, R p.1 p.2 := by
  induction l with
  | nil => simp
  | cons a t ih =>
    cases t with
    | nil => simp
    | cons b t' =>
      rw [List.chain'_cons, adjPairs_cons_cons, ih]
      simp

/-! ### C5: linear extrapolation beyond the node range -/

/-- C5 counterexample: with nodes `RT(1) = 1`, `RT(2) = 4` the segment
slope is `3`, so a linear extension of the bounding segment would give
`RT(3) = 7`; the code instead clamps and returns `RT(3) = 4`
(`np.interp`'s boundary behaviour), not the slope continuation. -/
theorem c5_extrapolation_counterexample :
    linear_interpolation_RT [Real.exp (-1), Real.exp (-4)] [1, 2] 3 = 4 ∧
    ((4 : ℝ) ≠ 4 + (4 - 1) / (2 - 1) * (3 - 2)) := by
  constructor
  · simp only [linear_interpolation_RT, List.map_cons, List.map_nil,
      Real.log_exp, List.zip_cons_cons, List.zip_nil_right]
    norm_num [npInterp]
  · norm_num

/-- C5 amended: evaluation of the linear-on-log-discount interpolant at a
target beyond either end of the node range is flat in R·T value: above
the last node it clamps to the last node's R·T and below the first node to
the first node's R·T (`-log` of the respective boundary discount factor),
rather than extending the bounding segment's slope. -/
theorem c5_flat_extrapolation_amended (dfs ms : List ℝ)
    (t mFirst dFirst mLast dLast : ℝ)
    (hlen : dfs.length = ms.length)
    (hsorted : List.Chain' (· < ·) ms)
    (hmf : ms.head? = some mFirst) (hdf : dfs.head? = some dFirst)
    (hml : ms.getLast? = some mLast) (hdl : dfs.getLast? = some dLast) :
    (mLast ≤ t → linear_interpolation_RT dfs ms t = -Real.log dLast) ∧
    (t ≤ mFirst → linear_interpolation_RT dfs ms t = -Real.log dFirst) := by
  constructor
  · intro ht
    have hmap : (dfs.map fun d => -Real.log d).getLast? =
        some (-Real.log dLast) := by
      rw [List.getLast?_map, hdl]
      rfl
    have hz := zip_getLast? ms (dfs.map fun d => -Real.log d) mLast
      (-Real.log dLast) (by simp [hlen]) hml hmap
    exact npInterp_right t _ _ (chain'_fst_zip ms _ hsorted) hz ht
  · intro ht
    have hmap : (dfs.map fun d => -Real.log d).head? =
        some (-Real.log dFirst) := by
      cases dfs with
      | nil => simp at hdf
      | cons a l =>
        rw [List.head?_cons, Option.some_inj] at hdf
        simp [hdf]
    have hz := zip_head? ms (dfs.map fun d => -Real.log d) mFirst
      (-Real.log dFirst) hmf hmap
    exact npInterp_left t _ _ hz ht

/-- C5 witness: flat extrapolation at concrete inputs beyond each end of
the node range. -/
theorem c5_flat_extrapolation_amended_witness :
    ((2 : ℝ) ≤ 3 ∧
      linear_interpolation_RT [1, Real.exp (-2)] [1, 2] 3
        = -Real.log (Real.exp (-2))) ∧
    ((0 : ℝ) ≤ 1 ∧
      linear_interpolation_RT [1, Real.exp (-2)] [1, 2] 0
        = -Real.log 1) :=
  ⟨⟨by norm_num,
      (c5_flat_extrapolation_amended [1, Real.exp (-2)] [1, 2] 3 1 1 2
        (Real.exp (-2)) rfl (by norm_num) rfl rfl rfl rfl).1
        (by norm_num)⟩,
    ⟨by norm_num,
      (c5_flat_extrapolation_amended [1, Real.exp (-2)] [1, 2] 0 1 1 2
        (Real.exp (-2)) rfl (by norm_num) rfl rfl rfl rfl).2
        (by norm_num)⟩⟩

/-! ### C3: fit-time validation across strategies -/

/-- C3 counterexample: `linear_interpolation` accepts a non-strictly-
increasing maturity vector without raising any error — no `DomainError`
(the fit succeeds), contradicting the claim that every strategy fails. -/
theorem c3_fit_validation_counterexample :
    ¬ List.Chain' (· < ·) [(2 : ℝ), 1] ∧
    ∃ g, linear_interpolation [1, 1] [2, 1] = Except.ok g := by
  refine ⟨?_, ⟨_, rfl⟩⟩
  rw [List.chain'_cons]
  norm_num

/-- C3 amended: not every strategy validates.  `Hermite_interpolation`
does, in the repository's own code: on at least 2 points with positive
discount factors it succeeds exactly when the maturities are strictly
increasing (with fewer than 2 points it fails even on valid ordering —
the source's `IndexError` at `f_nodes[0]`).  `linear_interpolation`
performs no validation and accepts any input whatsoever; the scipy-backed
and parametric strategies delegate any checking to scipy. -/
theorem c3_fit_validation_amended :
    (∀ dfs ms : List ℝ, dfs.length = ms.length → 2 ≤ ms.length →
      (∀ d ∈ dfs, 0 < d) →
      ((∃ g, Hermite_interpolation dfs ms = Except.ok g)
        ↔ List.Chain' (· < ·) ms))
    ∧ (∀ dfs ms : List ℝ, 2 ≤ ms.length → ¬ List.Chain' (· < ·) ms →
      ∀ g, Hermite_interpolation dfs ms ≠ Except.ok g)
    ∧ ∀ dfs ms : List ℝ, ∃ g, linear_interpolation dfs ms = Except.ok g := by
  have hkey : ∀ dfs ms : List ℝ, ¬ f_intervals dfs ms = [] →
      ((∃ g, Hermite_interpolation dfs ms = Except.ok g)
        ↔ List.Chain' (· < ·) ms) := by
    intro dfs ms hfe
    rw [chain'_iff_adjPairs]
    unfold Hermite_interpolation
    by_cases h : ∃ p ∈ adjPairs ms, p.2 - p.1 ≤ 0
    · rw [if_pos h]
      simp only [reduceCtorEq, exists_const, false_iff, not_forall]
      obtain ⟨p, hp, hple⟩ := h
      exact ⟨p, hp, not_lt.mpr (sub_nonpos.mp hple)⟩
    · rw [if_neg h, if_neg hfe]
      push_neg at h
      simp only [Except.ok.injEq, exists_eq', true_iff]
      intro p hp
      have := h p hp
      linarith [this]
  refine ⟨?_, ?_, fun dfs ms => ⟨_, rfl⟩⟩
  · intro dfs ms hlen h2 _
    refine hkey dfs ms ?_
    have hl : (f_intervals dfs ms).length
        = min (dfs.length - 1) (ms.length - 1) := by
      simp [f_intervals, List.length_zipWith, adjPairs_length]
    intro hcon
    rw [hcon] at hl
    simp only [List.length_nil] at hl
    omega
  · intro dfs ms h2 hchain g hok
    unfold Hermite_interpolation at hok
    by_cases h : ∃ p ∈ adjPairs ms, p.2 - p.1 ≤ 0
    · rw [if_pos h] at hok
      exact Except.noConfusion hok
    · exact hchain ((chain'_iff_adjPairs _ ms).mpr fun p hp => by
        push_neg at h
        have := h p hp
        linarith [this])

/-- C3 witness: Hermite accepts a strictly increasing two-point input
with positive discount factors, rejects a decreasing one, and linear
accepts even the decreasing one. -/
theorem c3_fit_validation_witness :
    (∃ g, Hermite_interpolation [0.9, 0.8] [1, 2] = Except.ok g) ∧
    (∀ g, Hermite_interpolation [0.9, 0.8] [2, 1] ≠ Except.ok g) ∧
    ∃ g, linear_interpolation [0.9, 0.8] [2, 1] = Except.ok g :=
  ⟨(c3_fit_validation_amended.1 [0.9, 0.8] [1, 2] rfl (by simp)
      (by
        intro d hd
        simp only [List.mem_cons, List.not_mem_nil, or_false] at hd
        rcases hd with rfl | rfl <;> norm_num)).mpr
      (by rw [List.chain'_cons]; norm_num),
    c3_fit_validation_amended.2.1 [0.9, 0.8] [2, 1] (by simp)
      (by rw [List.chain'_cons]; norm_num),
    c3_fit_validation_amended.2.2 [0.9, 0.8] [2, 1]⟩

/-! ### C6: Hermite evaluator guards -/

/-- C6: for every positive target the Hermite evaluator takes the log of
the spline value clipped to `eps = 1e-12`, so the log's argument is always
at least `eps` and strictly positive (no non-positive implied discount
factor is ever used); and at target maturity `0` the evaluator returns the
boundary forward rate `f_intervals[0]` directly instead of dividing. -/
theorem c6_hermite_floor (dfs ms : List ℝ) (t : ℝ) (ht : 0 < t) :
    Hermite_interpolate dfs ms t
      = -Real.log (max (hermiteSplineEval (hermiteNodes dfs ms) t) 1e-12)
        / t ∧
    (0 : ℝ) < max (hermiteSplineEval (hermiteNodes dfs ms) t) 1e-12 ∧
    (1e-12 : ℝ) ≤ max (hermiteSplineEval (hermiteNodes dfs ms) t) 1e-12 ∧
    Hermite_interpolate dfs ms 0 = (f_intervals dfs ms).headD 0 := by
  refine ⟨?_, ?_, le_max_right _ _, ?_⟩
  · simp [Hermite_interpolate, ht]
  · exact lt_of_lt_of_le (by norm_num) (le_max_right _ _)
  · simp [Hermite_interpolate, f_nodes]

/-- C6 witness: the guards at a concrete input. -/
theorem c6_hermite_floor_witness :
    (0 : ℝ) < 3 ∧
    (Hermite_interpolate [1, 1] [1, 2] 3
        = -Real.log
            (max (hermiteSplineEval (hermiteNodes [1, 1] [1, 2]) 3) 1e-12)
          / 3 ∧
      (0 : ℝ) < max (hermiteSplineEval (hermiteNodes [1, 1] [1, 2]) 3)
          1e-12 ∧
      (1e-12 : ℝ)
          ≤ max (hermiteSplineEval (hermiteNodes [1, 1] [1, 2]) 3) 1e-12 ∧
      Hermite_interpolate [1, 1] [1, 2] 0
        = (f_intervals [1, 1] [1, 2]).headD 0) :=
  ⟨by norm_num, c6_hermite_floor [1, 1] [1, 2] 3 (by norm_num)⟩

/-! ### C10: linear interpolant at target maturity zero -/

/-- C10: the linear interpolant has no guard for zero (or negative) target
maturities: it always divides the interpolated R·T value by the target, so
at target `0` the division's divisor is zero and no finite yield is
returned (`none`), while every nonzero target goes through the same
unguarded formula — unlike the Hermite evaluator, which special-cases
target `0` to the boundary forward rate. -/
theorem c10_zero_target (dfs ms : List ℝ) (t : ℝ) (ht : t ≠ 0) :
    linear_interpolate dfs ms 0 = none ∧
    linear_interpolate dfs ms t
      = some (linear_interpolation_RT dfs ms t / t) ∧
    Hermite_interpolate dfs ms 0 = (f_intervals dfs ms).headD 0 := by
  refine ⟨?_, ?_, ?_⟩
  · simp [linear_interpolate, floatDiv]
  · simp [linear_interpolate, floatDiv, ht]
  · simp [Hermite_interpolate, f_nodes]

/-- C10 witness: evaluation at a concrete negative target goes through the
same division (no guard), and at `0` the result is non-finite. -/
theorem c10_zero_target_witness :
    ((-1 : ℝ) ≠ 0) ∧
    (linear_interpolate [1] [1] 0 = none ∧
      linear_interpolate [1] [1] (-1)
        = some (linear_interpolation_RT [1] [1] (-1) / (-1)) ∧
      Hermite_interpolate [1] [1] 0 = (f_intervals [1] [1]).headD 0) :=
  ⟨by norm_num, c10_zero_target [1] [1] (-1) (by norm_num)⟩

/-! ### Helper lemmas for the forward-rate round trip (C2) -/

lemma getElem_adjPairs {α : Type*} (l : List α) (k : ℕ)
    (hk : k < (adjPairs l).length) (h1 : k < l.length)
    (h2 : k + 1 < l.length) :
    (adjPairs l)[k] = (l[k], l[k + 1]) := by
  simp only [adjPairs] at hk ⊢
  rw [List.getElem_zip]
  rw [List.getElem_tail]

@[simp] lemma cumprod_length (l : List ℝ) :
    (cumprod l).length = l.length := by
  simp [cumprod]

lemma getElem_cumprod (l : List ℝ) (k : ℕ) (hk : k < (cumprod l).length)
    (h1 : k < l.length) :
    (cumprod l)[k] = (l.take (k + 1)).prod := by
  simp only [cumprod] at hk ⊢
  rw [List.getElem_map, List.getElem_range]

lemma headD_eq_getElem {α : Type*} (l : List α) (d : α)
    (h : 0 < l.length) : l.headD d = l[0] := by
  cases l with
  | nil => simp at h
  | cons a t => rfl

lemma spot_to_discount_eq (rates ms : List ℝ) (f : ℝ) (c : Bool) :
    spot_to_discount rates ms f c
      = (rates.zip ms).map fun p => dfScalar f c p.1 p.2 := by
  cases c <;> simp [spot_to_discount, dfScalar]

lemma discount_to_spot_eq (dfs ms : List ℝ) (f : ℝ) (c : Bool) :
    discount_to_spot dfs ms f c
      = (dfs.zip ms).map fun p => dsScalar f c p.1 p.2 := by
  cases c <;> simp [discount_to_spot, dsScalar]

lemma ds_df_scalar (f : ℝ) (c : Bool) (r t : ℝ) (hf : 0 < f) (ht : 0 < t)
    (hb : c = false → 0 < 1 + r / f) :
    dsScalar f c (dfScalar f c r t) t = r := by
  cases c with
  | true => simpa [dfScalar, dsScalar] using spot_df_spot_cont r t ht.ne'
  | false =>
    simpa [dfScalar, dsScalar] using
      spot_df_spot_disc f r t hf.ne' ht.ne' (hb rfl)

lemma df_ds_scalar (f : ℝ) (c : Bool) (d t : ℝ) (hf : 0 < f) (ht : 0 < t)
    (hd : 0 < d) :
    dfScalar f c (dsScalar f c d t) t = d := by
  cases c with
  | true => simpa [dfScalar, dsScalar] using df_spot_df_cont d t ht.ne' hd
  | false =>
    simpa [dfScalar, dsScalar] using
      df_spot_df_disc f d t hf.ne' ht.ne' hd

lemma dfScalar_pos (f : ℝ) (c : Bool) (r t : ℝ)
    (hb : c = false → 0 < 1 + r / f) : 0 < dfScalar f c r t := by
  cases c with
  | true => simpa [dfScalar] using Real.exp_pos (-(r * t))
  | false =>
    simp only [dfScalar, Bool.false_eq_true, if_false]
    exact one_div_pos.mpr (Real.rpow_pos_of_pos (hb rfl) _)

/-- In a strict chain starting at `0`, every entry is positive. -/
lemma chain_cons_zero_pos (es : List ℝ)
    (hc : List.Chain' (· < ·) (0 :: es)) :
    ∀ i, ∀ h : i < es.length, 0 < es[i] := by
  intro i
  induction i using Nat.strong_induction_on with
  | _ i ih =>
    intro h
    have hadj := List.chain'_iff_get.mp hc
    cases i with
    | zero =>
      have h0 := hadj 0 (by simp; omega)
      simpa using h0
    | succ j =>
      have hj : j < es.length := by omega
      have hstep := hadj (j + 1) (by simp; omega)
      simp only [List.get_eq_getElem, List.getElem_cons_succ] at hstep
      exact lt_trans (ih j (by omega) hj) hstep

/-- In a strict chain starting at `0`, consecutive entries increase. -/
lemma chain_cons_zero_adj (es : List ℝ)
    (hc : List.Chain' (· < ·) (0 :: es)) :
    ∀ j, ∀ h : j + 1 < es.length, es[j] < es[j + 1] := by
  intro j h
  have hadj := List.chain'_iff_get.mp hc.tail
  have := hadj j (by simp; omega)
  simpa using this

lemma prod_take_one (l : List ℝ) (h : 0 < l.length) :
    (l.take 1).prod = l[0] := by
  cases l with
  | nil => simp at h
  | cons a t => simp

lemma neg_one_rpow_two : ((-1 : ℝ)) ^ ((2 : ℝ)) = 1 := by
  rw [show ((2 : ℝ)) = ((2 : ℕ) : ℝ) from by norm_num, Real.rpow_natCast]
  norm_num

/-- C2 counterexample: the bucketed round trip fails as stated for a
forward rate below `-freq`.  With `fwd = [-2]` over the single range
`(0, 2)` (`freq = 1`, discrete) the per-bucket discount factor is
`1/(1-2)**2 = 1` with ordinary finite floats, and the round trip recovers
the forward rate `0`, not `-2`. -/
theorem c2_fwd_roundtrip_counterexample :
    (discount_to_fwd (fwd_to_discount [-2] [((0 : ℝ), 2)] 1 false).2
        (fwd_to_discount [-2] [((0 : ℝ), 2)] 1 false).1 1 false).2
      = [0] ∧
    ¬ |(0 : ℝ) - (-2)| ≤ 1e-9 := by
  constructor
  · have s1 : fwd_to_discount [-2] [((0 : ℝ), 2)] 1 false = ([2], [1]) := by
      simp only [fwd_to_discount, List.map_cons, List.map_nil,
        spot_to_discount, Bool.false_eq_true, if_false, List.zip_cons_cons,
        List.zip_nil_right, cumprod, List.length_cons, List.length_nil,
        List.range_succ, List.range_zero, List.take_succ_cons,
        List.take_zero, List.prod_cons,
        List.prod_nil]
      norm_num [neg_one_rpow_two]
    rw [s1]
    have s2 : discount_to_spot [1] [2] 1 false = [0] := by
      simp only [discount_to_spot, Bool.false_eq_true, if_false,
        List.zip_cons_cons, List.zip_nil_right, List.map_cons, List.map_nil]
      norm_num [Real.one_rpow]
    simp only [discount_to_fwd]
    rw [s2]
    simp [spot_to_fwd, discount_to_spot, adjPairs]
  · norm_num

set_option maxHeartbeats 1000000 in
/-- C2 amended: for contiguous, strictly increasing maturity ranges
starting at `0` and forward rates whose discrete compounding base
`1 + fwd/freq` stays positive (no restriction when continuous), the
round trip `discount_to_fwd ∘ fwd_to_discount` recovers the forward rates
exactly — with no monotonicity assumption on the resulting cumulative
discount factors. -/
theorem c2_fwd_roundtrip_amended (es fwd : List ℝ) (f : ℝ) (c : Bool)
    (hne : es ≠ [])
    (hlen : fwd.length = es.length)
    (hchain : List.Chain' (· < ·) ((0 : ℝ) :: es))
    (hf : 0 < f)
    (hb : c = false → ∀ x ∈ fwd, 0 < 1 + x / f) :
    (discount_to_fwd (fwd_to_discount fwd (((0 : ℝ) :: es).zip es) f c).2
        (fwd_to_discount fwd (((0 : ℝ) :: es).zip es) f c).1 f c).2
      = fwd := by
  have hn : 0 < es.length := List.length_pos.mpr hne
  have hes_pos := chain_cons_zero_pos es hchain
  have hes_adj := chain_cons_zero_adj es hchain
  set diffs := (((0 : ℝ) :: es).zip es).map (fun p => p.2 - p.1)
    with hdiffs_def
  set dfs := spot_to_discount fwd diffs f c with hdfs_def
  set D := cumprod dfs with hD_def
  have hms : (((0 : ℝ) :: es).zip es).map (fun p => p.2) = es := by
    rw [show (fun p : ℝ × ℝ => p.2) = Prod.snd from rfl]
    exact List.map_snd_zip _ _ (by simp)
  have hdiffs_len : diffs.length = es.length := by
    rw [hdiffs_def, List.length_map, List.length_zip]
    simp
  have hdfs_len : dfs.length = es.length := by
    rw [hdfs_def, spot_to_discount_eq, List.length_map, List.length_zip,
      hlen, hdiffs_len]
    simp
  have hD_len : D.length = es.length := by
    rw [hD_def, cumprod_length, hdfs_len]
  have hdiffs0 : diffs[0] = es[0] := by
    simp only [hdiffs_def, List.getElem_map, List.getElem_zip,
      List.getElem_cons_zero]
    exact sub_zero _
  have hdiffsS : ∀ j, ∀ h : j + 1 < es.length,
      diffs[j + 1] = es[j + 1] - es[j] := by
    intro j h
    simp only [hdiffs_def, List.getElem_map, List.getElem_zip,
      List.getElem_cons_succ]
  have hdfs_elem : ∀ k, ∀ h : k < es.length,
      dfs[k] = dfScalar f c fwd[k] diffs[k] := by
    intro k h
    simp only [hdfs_def, spot_to_discount_eq, List.getElem_map,
      List.getElem_zip]
  have hdfs_pos : ∀ x ∈ dfs, 0 < x := by
    intro x hx
    rw [hdfs_def, spot_to_discount_eq] at hx
    obtain ⟨p, hp, rfl⟩ := List.mem_map.mp hx
    obtain ⟨a, b⟩ := p
    exact dfScalar_pos f c a b (fun hc => hb hc a (List.of_mem_zip hp).1)
  have hD_elem : ∀ k, ∀ h : k < es.length,
      D[k] = (dfs.take (k + 1)).prod := by
    intro k h
    exact getElem_cumprod dfs k (by rw [cumprod_length]; omega) (by omega)
  have hD_pos : ∀ k, ∀ h : k < es.length, 0 < D[k] := by
    intro k h
    rw [hD_elem k h]
    exact List.prod_pos fun x hx => hdfs_pos x (List.take_subset _ _ hx)
  have hD0 : D[0] = dfs[0] := by
    rw [hD_elem 0 hn]
    exact prod_take_one dfs (by omega)
  have hDsucc : ∀ j, ∀ h : j + 1 < es.length,
      D[j + 1] = D[j] * dfs[j + 1] := by
    intro j h
    rw [hD_elem (j + 1) h, hD_elem j (by omega)]
    exact List.prod_take_succ dfs (j + 1) (by omega)
  set r := discount_to_spot D es f c with hr_def
  have hr_len : r.length = es.length := by
    rw [hr_def, discount_to_spot_eq, List.length_map, List.length_zip,
      hD_len]
    simp
  have hr_elem : ∀ k, ∀ h : k < es.length,
      r[k] = dsScalar f c D[k] es[k] := by
    intro k h
    simp only [hr_def, discount_to_spot_eq, List.getElem_map,
      List.getElem_zip]
  have hfwd_b : ∀ k, ∀ h : k < es.length, c = false →
      0 < 1 + fwd[k] / f := by
    intro k h hc
    exact hb hc _ (List.getElem_mem _)
  have hdfs_elem_pos : ∀ k, ∀ h : k < es.length, 0 < dfs[k] := by
    intro k h
    exact hdfs_pos _ (List.getElem_mem _)
  have hround : spot_to_discount r es f c = D := by
    apply List.ext_getElem
    · rw [spot_to_discount_eq, List.length_map, List.length_zip, hr_len,
        hD_len]
      simp
    · intro k hk1 hk2
      have hke : k < es.length := by
        rw [hD_len] at hk2
        exact hk2
      simp only [spot_to_discount_eq, List.getElem_map, List.getElem_zip]
      rw [hr_elem k hke]
      exact df_ds_scalar f c D[k] es[k] hf (hes_pos k hke) (hD_pos k hke)
  have hgoal : fwd_to_discount fwd (((0 : ℝ) :: es).zip es) f c
      = (es, D) := by
    rw [hD_def, hdfs_def, hdiffs_def]
    simp only [fwd_to_discount]
    rw [hms]
  rw [hgoal]
  simp only [discount_to_fwd]
  rw [← hr_def]
  cases c with
  | false =>
    simp only [spot_to_fwd, Bool.false_eq_true, if_false]
    rw [hround]
    apply List.ext_getElem
    · simp only [List.length_cons, discount_to_spot_eq, List.length_map,
        List.length_zip, adjPairs_length, hD_len, hlen]
      omega
    · intro i hi1 hi2
      have hie : i < es.length := by
        rw [hlen] at hi2
        exact hi2
      cases i with
      | zero =>
        rw [List.getElem_cons_zero, headD_eq_getElem r 0 (by omega),
          hr_elem 0 (by omega), hD0, hdfs_elem 0 (by omega), hdiffs0]
        exact ds_df_scalar f false fwd[0] es[0] hf (hes_pos 0 (by omega))
          (fun _ => hfwd_b 0 (by omega) rfl)
      | succ j =>
        have hj : j + 1 < es.length := hie
        rw [List.getElem_cons_succ]
        simp only [discount_to_spot_eq, List.getElem_map, List.getElem_zip]
        rw [getElem_adjPairs D j (by simp only [adjPairs_length]; omega)
            (by omega) (by omega),
          getElem_adjPairs es j (by simp only [adjPairs_length]; omega)
            (by omega) (by omega)]
        show dsScalar f false (D[j + 1] / D[j]) (es[j + 1] - es[j])
          = fwd[j + 1]
        rw [hDsucc j hj, mul_div_cancel_left₀ _ (hD_pos j (by omega)).ne',
          hdfs_elem (j + 1) hj, hdiffsS j hj]
        exact ds_df_scalar f false fwd[j + 1] (es[j + 1] - es[j]) hf
          (by have := hes_adj j hj; linarith)
          (fun _ => hfwd_b (j + 1) hj rfl)
  | true =>
    simp only [spot_to_fwd, if_true]
    apply List.ext_getElem
    · simp only [List.length_cons, List.length_zipWith, adjPairs_length,
        hr_len, hlen]
      omega
    · intro i hi1 hi2
      have hie : i < es.length := by
        rw [hlen] at hi2
        exact hi2
      have hrts : ∀ k, ∀ h : k < es.length,
          r[k] * es[k] = -Real.log D[k] := by
        intro k h
        rw [hr_elem k h]
        simp only [dsScalar, if_true]
        exact div_mul_cancel₀ _ (hes_pos k h).ne'
      cases i with
      | zero =>
        rw [List.getElem_cons_zero, headD_eq_getElem r 0 (by omega),
          hr_elem 0 (by omega), hD0, hdfs_elem 0 (by omega), hdiffs0]
        exact ds_df_scalar f true fwd[0] es[0] hf (hes_pos 0 (by omega))
          (fun h => Bool.noConfusion h)
      | succ j =>
        have hj : j + 1 < es.length := hie
        rw [List.getElem_cons_succ, List.getElem_zipWith]
        rw [getElem_adjPairs r j (by simp only [adjPairs_length]; omega)
            (by omega) (by omega),
          getElem_adjPairs es j (by simp only [adjPairs_length]; omega)
            (by omega) (by omega)]
        show (r[j + 1] * es[j + 1] - r[j] * es[j]) / (es[j + 1] - es[j])
          = fwd[j + 1]
        rw [hrts (j + 1) hj, hrts j (by omega), hDsucc j hj,
          Real.log_mul (hD_pos j (by omega)).ne'
            (hdfs_elem_pos (j + 1) hj).ne',
          hdfs_elem (j + 1) hj, hdiffsS j hj]
        simp only [dfScalar, if_true, Real.log_exp]
        have hd : es[j + 1] - es[j] ≠ 0 := by
          have := hes_adj j hj
          linarith
        field_simp

/-- C2 witness: the amended round trip at a concrete input. -/
theorem c2_fwd_roundtrip_amended_witness :
    List.Chain' (· < ·) ((0 : ℝ) :: [1, 2]) ∧
    (discount_to_fwd
        (fwd_to_discount [0.05, 0.06] (((0 : ℝ) :: [1, 2]).zip [1, 2]) 1
          false).2
        (fwd_to_discount [0.05, 0.06] (((0 : ℝ) :: [1, 2]).zip [1, 2]) 1
          false).1 1 false).2
      = [0.05, 0.06] :=
  ⟨by norm_num [List.chain'_cons],
    c2_fwd_roundtrip_amended [1, 2] [0.05, 0.06] 1 false (by simp) rfl
      (by norm_num [List.chain'_cons]) (by norm_num)
      (by
        intro _ x hx
        simp only [List.mem_cons, List.not_mem_nil, or_false] at hx
        rcases hx with rfl | rfl <;> norm_num)⟩

/-! ### C7: payment-schedule generation -/

/-- Each loop step advances the month counter by `12 // freq` months. -/
lemma monthIdx_next (freq : Nat) (d : Date) (hm : 1 ≤ d.month) :
    monthIdx (nextPaymentDate freq d) = monthIdx d + (12 / freq : Nat) := by
  simp only [nextPaymentDate, monthIdx]
  generalize 12 / freq = s
  omega

/-- An earlier date has a month counter that is not larger, provided its
month field is valid. -/
lemma monthIdx_le_of_dateLt (a b : Date) (ha : a.month ≤ 12)
    (hb : 1 ≤ b.month) (h : dateLt a b = true) :
    monthIdx a ≤ monthIdx b := by
  simp only [dateLt, Bool.or_eq_true, Bool.and_eq_true, decide_eq_true_eq,
    beq_iff_eq] at h
  simp only [monthIdx]
  rcases h with h | ⟨hy, h⟩
  · omega
  · rcases h with h | ⟨hm, _⟩ <;> omega

/-- Behaviour of the fuelled schedule loop: with enough fuel it returns the
walked dates, all strictly before maturity, starting at the current date
and chained by `nextPaymentDate`. -/
lemma paymentDatesLoop_spec (freq : Nat) (mat : Date)
    (hstep : 1 ≤ 12 / freq) (hmat : 1 ≤ mat.month) :
    ∀ n : ℕ, ∀ cur, 1 ≤ cur.month → cur.month ≤ 12 →
      monthIdx mat - monthIdx cur < (n : ℤ) →
      ∃ l, paymentDatesLoop freq mat n cur = some l ∧
        (∀ d ∈ l, dateLt d mat = true) ∧
        List.Chain' (fun a b => b = nextPaymentDate freq a) l ∧
        (dateLt cur mat = true → l.head? = some cur) ∧
        (dateLt cur mat = false → l = []) := by
  intro n
  induction n with
  | zero =>
    intro cur h1 h12 hfuel
    have hlt : dateLt cur mat = false := by
      cases hl : dateLt cur mat with
      | false => rfl
      | true =>
        have := monthIdx_le_of_dateLt cur mat h12 hmat hl
        omega
    refine ⟨[], by simp [paymentDatesLoop, hlt], by simp, by simp, ?_,
      fun _ => rfl⟩
    intro hc
    rw [hlt] at hc
    exact Bool.noConfusion hc
  | succ n ih =>
    intro cur h1 h12 hfuel
    cases hlt : dateLt cur mat with
    | false =>
      refine ⟨[], by simp [paymentDatesLoop, hlt], by simp, by simp,
        fun hc => Bool.noConfusion hc, fun _ => rfl⟩
    | true =>
      have hm' : monthIdx cur ≤ monthIdx mat :=
        monthIdx_le_of_dateLt cur mat h12 hmat hlt
      have h1' : 1 ≤ (nextPaymentDate freq cur).month := by
        simp only [nextPaymentDate]
        omega
      have h12' : (nextPaymentDate freq cur).month ≤ 12 := by
        simp only [nextPaymentDate]
        omega
      have hfuel' :
          monthIdx mat - monthIdx (nextPaymentDate freq cur) < n := by
        rw [monthIdx_next freq cur h1]
        omega
      obtain ⟨l, hl, hmem, hchain, hhead, hnil⟩ :=
        ih (nextPaymentDate freq cur) h1' h12' hfuel'
      refine ⟨cur :: l, ?_, ?_, ?_, fun _ => rfl, ?_⟩
      · simp [paymentDatesLoop, hlt, hl]
      · intro d hd
        rcases List.mem_cons.mp hd with rfl | hd
        · exact hlt
        · exact hmem d hd
      · refine List.chain'_cons'.mpr ⟨?_, hchain⟩
        intro b hb
        cases hlt' : dateLt (nextPaymentDate freq cur) mat with
        | true =>
          rw [hhead hlt'] at hb
          simp only [Option.mem_def, Option.some_inj] at hb
          rw [← hb]
        | false =>
          rw [hnil hlt'] at hb
          simp at hb
      · intro hc
        exact Bool.noConfusion hc

/-- The loop makes no progress when the month step is zero and the current
date is before maturity. -/
lemma paymentDatesLoop_none (freq : Nat) (mat cur : Date)
    (hfix : nextPaymentDate freq cur = cur)
    (hlt : dateLt cur mat = true) :
    ∀ n, paymentDatesLoop freq mat n cur = none := by
  intro n
  induction n with
  | zero => simp [paymentDatesLoop, hlt]
  | succ n ih => simp [paymentDatesLoop, hlt, hfix, ih]

/-- C7 counterexample: a bond with positive payment frequency 13 (month
step `12 // 13 = 0`) never advances its walk, so no schedule is ever
generated — the source loop runs forever. -/
theorem c7_schedule_counterexample :
    (0 : Int) < 13 ∧
    nextPaymentDate 13 ⟨2020, 1, 1⟩ = ⟨2020, 1, 1⟩ ∧
    dateLt ⟨2020, 1, 1⟩ ⟨2021, 1, 1⟩ = true ∧
    ¬ ∃ fuel dates,
        get_all_payment_dates 13 ⟨2020, 1, 1⟩ ⟨2021, 1, 1⟩ fuel
          = some dates := by
  refine ⟨by norm_num, by decide, by decide, ?_⟩
  rintro ⟨fuel, dates, h⟩
  have hnone :=
    paymentDatesLoop_none 13 ⟨2021, 1, 1⟩ ⟨2020, 1, 1⟩ (by decide)
      (by decide) fuel
  rw [get_all_payment_dates, if_neg (by norm_num)] at h
  rw [show (13 : Int).toNat = 13 from rfl, hnone] at h
  exact Option.noConfusion h

/-- C7 amended: for a zero or negative frequency the schedule is the
single entry `[maturity_date]`; for a positive frequency of at most 12
(the month step is the integer division `12 // frequency`, which vanishes
for frequency ≥ 13 and then the loop never terminates) the schedule is
generated by walking forward from `first_coupon_date` in clamped month
steps, appending dates strictly before `maturity_date`, and then appending
`maturity_date` itself. -/
theorem c7_schedule_amended (freq : Int) (first mat : Date)
    (hfreq1 : 1 ≤ freq) (hfreq12 : freq ≤ 12)
    (hm1 : 1 ≤ first.month) (hm2 : first.month ≤ 12)
    (hmm : 1 ≤ mat.month) :
    (∀ fq : Int, fq ≤ 0 → ∀ fuel,
      get_all_payment_dates fq first mat fuel = some [mat]) ∧
    ∃ fuel dates walk,
      get_all_payment_dates freq first mat fuel = some dates ∧
      dates = walk ++ [mat] ∧
      (∀ d ∈ walk, dateLt d mat = true) ∧
      List.Chain' (fun a b => b = nextPaymentDate freq.toNat a) walk ∧
      (dateLt first mat = true → walk.head? = some first) ∧
      (dateLt first mat = false → walk = []) := by
  constructor
  · intro fq hfq fuel
    simp [get_all_payment_dates, hfq]
  · have hstep : 1 ≤ 12 / freq.toNat := by
      have hpos : 0 < freq.toNat := by omega
      exact (Nat.one_le_div_iff hpos).mpr (by omega)
    have hfuel : monthIdx mat - monthIdx first
        < (monthIdx mat - monthIdx first).toNat + 1 := by
      omega
    obtain ⟨l, hl, hmem, hchain, hhead, hnil⟩ :=
      paymentDatesLoop_spec freq.toNat mat hstep hmm
        ((monthIdx mat - monthIdx first).toNat + 1) first hm1 hm2 hfuel
    refine ⟨(monthIdx mat - monthIdx first).toNat + 1, l ++ [mat], l, ?_,
      rfl, hmem, hchain, hhead, hnil⟩
    rw [get_all_payment_dates, if_neg (by omega), hl]
    rfl

/-- C7 witness: a concrete semiannual bond schedule. -/
theorem c7_schedule_amended_witness :
    (1 : Int) ≤ 2 ∧
    ((∀ fq : Int, fq ≤ 0 → ∀ fuel,
        get_all_payment_dates fq ⟨2020, 1, 31⟩ ⟨2021, 1, 31⟩ fuel
          = some [⟨2021, 1, 31⟩]) ∧
      ∃ fuel dates walk,
        get_all_payment_dates 2 ⟨2020, 1, 31⟩ ⟨2021, 1, 31⟩ fuel
          = some dates ∧
        dates = walk ++ [⟨2021, 1, 31⟩] ∧
        (∀ d ∈ walk, dateLt d ⟨2021, 1, 31⟩ = true) ∧
        List.Chain' (fun a b => b = nextPaymentDate (2 : Int).toNat a)
          walk ∧
        (dateLt ⟨2020, 1, 31⟩ ⟨2021, 1, 31⟩ = true →
          walk.head? = some ⟨2020, 1, 31⟩) ∧
        (dateLt ⟨2020, 1, 31⟩ ⟨2021, 1, 31⟩ = false → walk = [])) :=
  ⟨by norm_num,
    c7_schedule_amended 2 ⟨2020, 1, 31⟩ ⟨2021, 1, 31⟩ (by norm_num)
      (by norm_num) (by decide) (by decide) (by decide)⟩

/-! ### C8: pricing only the future cash flows -/

/-- Summing `cf · df` over a zip against mapped discount factors equals
summing over the pairing that keeps each cash flow with its own maturity
and aligned zero rate. -/
lemma price_zip_assoc (a b rates : List ℝ) (f : ℝ) (c : Bool) :
    ((a.zip ((rates.zip b).map fun p => dfScalar f c p.1 p.2)).map
        fun p => p.1 * p.2).sum
      = (((a.zip b).zip rates).map
          fun q => q.1.1 * dfScalar f c q.2 q.1.2).sum := by
  induction a generalizing b rates with
  | nil => simp
  | cons a0 as ih =>
    cases b with
    | nil => simp
    | cons b0 bs =>
      cases rates with
      | nil => simp
      | cons r0 rs =>
        simp only [List.zip_cons_cons, List.map_cons, List.sum_cons]
        rw [ih bs rs]

/-- The core alignment fact behind `bond.calc_price`: on a sorted
year-fraction vector, pairing the suffix `cash_flows[-n:]` with the
filtered positive maturities is the same as filtering the aligned
`(cash flow, maturity)` pairs. -/
lemma price_filter_aux (a b rates : List ℝ) (f : ℝ) (c : Bool)
    (hlen : a.length = b.length)
    (hsorted : List.Pairwise (· ≤ ·) b) :
    (((bond_cash_flows a (b.filter fun t => 0 < t).length).zip
        ((rates.zip (b.filter fun t => 0 < t)).map
          fun p => dfScalar f c p.1 p.2)).map fun p => p.1 * p.2).sum
      = ((((a.zip b).filter fun p => 0 < p.2).zip rates).map
          fun q => q.1.1 * dfScalar f c q.2 q.1.2).sum := by
  induction b generalizing a rates with
  | nil =>
    simp [bond_cash_flows]
  | cons y ys ih =>
    cases a with
    | nil => simp at hlen
    | cons a0 as =>
      have hlen' : as.length = ys.length := by simpa using hlen
      by_cases hy : 0 < y
      · have hall : ∀ t ∈ y :: ys, 0 < t := by
          intro t ht
          rcases List.mem_cons.mp ht with rfl | ht
          · exact hy
          · exact lt_of_lt_of_le hy (List.rel_of_pairwise_cons hsorted ht)
        have hfil : (y :: ys).filter (fun t => 0 < t) = y :: ys :=
          List.filter_eq_self.mpr fun t ht => by
            simpa using hall t ht
        have hfilz : ((a0 :: as).zip (y :: ys)).filter (fun p => 0 < p.2)
            = (a0 :: as).zip (y :: ys) :=
          List.filter_eq_self.mpr fun p hp => by
            simpa using hall p.2 (List.of_mem_zip hp).2
        rw [hfil, hfilz]
        have hcf : bond_cash_flows (a0 :: as) (y :: ys).length
            = a0 :: as := by
          simp only [bond_cash_flows, List.length_cons]
          rw [if_neg (by omega)]
          rw [show as.length + 1 - (ys.length + 1) = 0 from by omega]
          exact List.drop_zero _
        rw [hcf]
        exact price_zip_assoc (a0 :: as) (y :: ys) rates f c
      · have hfil : (y :: ys).filter (fun t => 0 < t)
            = ys.filter (fun t => 0 < t) := by
          rw [List.filter_cons]
          simp [hy]
        rw [hfil]
        have hle : (ys.filter fun t => 0 < t).length ≤ ys.length :=
          List.length_filter_le _ _
        have hfz : ((a0 :: as).zip (y :: ys)).filter (fun p => 0 < p.2)
            = (as.zip ys).filter (fun p => 0 < p.2) := by
          rw [List.zip_cons_cons, List.filter_cons]
          simp [hy]
        rw [hfz]
        by_cases hn0 : (ys.filter fun t => 0 < t).length = 0
        · have hfe : ys.filter (fun t => 0 < t) = [] :=
            List.length_eq_zero.mp hn0
          have hfe2 : (as.zip ys).filter (fun p => 0 < p.2) = [] := by
            refine List.filter_eq_nil.mpr fun p hp => ?_
            have h2 := (List.of_mem_zip hp).2
            have : ¬ 0 < p.2 := by
              have := List.filter_eq_nil.mp hfe p.2 h2
              simpa using this
            simpa using this
          rw [hn0, hfe, hfe2]
          simp [bond_cash_flows]
        · have hcf : bond_cash_flows (a0 :: as)
              (ys.filter fun t => 0 < t).length
              = bond_cash_flows as (ys.filter fun t => 0 < t).length := by
            simp only [bond_cash_flows, if_neg hn0, List.length_cons]
            rw [show as.length + 1 - (ys.filter fun t => 0 < t).length
              = (as.length - (ys.filter fun t => 0 < t).length) + 1 from by
                omega]
            rw [List.drop_succ_cons]
          rw [hcf]
          exact ih as rates hlen' (List.Pairwise.of_cons hsorted)

/-- C8: `calc_price` is the present value of exactly the payments with
strictly positive year-fraction from `today`, each cash flow discounted at
its own payment date's maturity with its aligned zero rate; past and
same-day payments contribute nothing. -/
theorem c8_price_future_flows (today : Date) (dates : List Date)
    (allCF zero_rates : List ℝ) (f : ℝ) (c : Bool)
    (hlen : allCF.length = dates.length)
    (hsorted : List.Pairwise (· ≤ ·) (dates.map (yearFrac today))) :
    calc_price today dates allCF zero_rates f c
      = ((((allCF.zip (dates.map (yearFrac today))).filter
            fun p => 0 < p.2).zip zero_rates).map
          fun q => q.1.1 * dfScalar f c q.2 q.1.2).sum := by
  unfold calc_price price_bond bond_maturities
  rw [spot_to_discount_eq]
  exact price_filter_aux allCF (dates.map (yearFrac today)) zero_rates f c
    (by simp [hlen]) hsorted

/-- C8 witness: a two-payment bond where the first payment date lies in
the past and is excluded. -/
theorem c8_price_future_flows_witness :
    List.Pairwise (· ≤ ·)
      ([⟨2023, 7, 1⟩, ⟨2025, 1, 1⟩].map (yearFrac ⟨2024, 1, 1⟩)) ∧
    calc_price ⟨2024, 1, 1⟩ [⟨2023, 7, 1⟩, ⟨2025, 1, 1⟩] [5, 105] [0.05]
        1 false
      = (((([(5 : ℝ), 105].zip
            ([⟨2023, 7, 1⟩, ⟨2025, 1, 1⟩].map
              (yearFrac ⟨2024, 1, 1⟩))).filter
            fun p => 0 < p.2).zip [(0.05 : ℝ)]).map
          fun q => q.1.1 * dfScalar 1 false q.2 q.1.2).sum := by
  have hsor : List.Pairwise (· ≤ ·)
      ([⟨2023, 7, 1⟩, ⟨2025, 1, 1⟩].map (yearFrac ⟨2024, 1, 1⟩)) := by
    simp only [List.map_cons, List.map_nil]
    refine List.Pairwise.cons ?_ (List.Pairwise.cons ?_ List.Pairwise.nil)
    · intro a' ha'
      simp only [List.mem_cons, List.not_mem_nil, or_false] at ha'
      subst ha'
      unfold yearFrac
      rw [show dateToDays ⟨2023, 7, 1⟩ - dateToDays ⟨2024, 1, 1⟩
          = (-184 : ℤ) from by decide,
        show dateToDays ⟨2025, 1, 1⟩ - dateToDays ⟨2024, 1, 1⟩
          = (366 : ℤ) from by decide]
      norm_num
    · intro a' ha'
      simp at ha'
  exact ⟨hsor,
    c8_price_future_flows ⟨2024, 1, 1⟩ [⟨2023, 7, 1⟩, ⟨2025, 1, 1⟩]
      [5, 105] [0.05] 1 false rfl hsor⟩

end YieldCurve
